import Mathlib

/-!
Verification of the RV-combination core of `wobble` (`wobble/results.py`).

The embedded code is `Results.combine_orders`, `Results.lnlike_sigmas`,
`Results.get_design_matrix`, `Results.get_index_lists` and
`Results.add_component`.  Matrices indexed by spectral order `r < R` and
epoch `n < N` are embedded as `Matrix (Fin R) (Fin N) K` over a field `K`
(`K = ℚ` for exact-arithmetic claims, `K = ℝ` where the log-likelihood's
transcendental functions are needed).  Row-major flattening of an `R × N`
array sends `(r, n)` to `i = r * N + n`, so `r = i / N` and `n = i % N`,
matching `np.mgrid[:R, :N]` followed by `.flatten()`.
-/

open Matrix

namespace WobbleRV

/-- Order index `r = i / N` of flattened row-major index `i`, as produced by
`Rs.flatten()` for `Rs, Ns = np.mgrid[:R, :N]` in `get_index_lists`. -/
def rowOrd (R N : ℕ) (i : Fin (R * N)) : Fin R :=
  ⟨(i : ℕ) / N, by
    rcases Nat.eq_zero_or_pos N with h0 | h0
    · exact absurd i.isLt (by simp [h0])
    · exact (Nat.div_lt_iff_lt_mul h0).mpr i.isLt⟩

/-- Epoch index `n = i % N` of flattened row-major index `i`, as produced by
`Ns.flatten()` in `get_index_lists`. -/
def rowEp (R N : ℕ) (i : Fin (R * N)) : Fin N :=
  ⟨(i : ℕ) % N, by
    rcases Nat.eq_zero_or_pos N with h0 | h0
    · exact absurd i.isLt (by simp [h0])
    · exact Nat.mod_lt _ h0⟩

/-- Row-major flattened index `r * N + n` of the entry `(r, n)`. -/
def rowIdx (R N : ℕ) (r : Fin R) (n : Fin N) : Fin (R * N) :=
  ⟨(r : ℕ) * N + (n : ℕ), by
    have hn := n.isLt
    have hr := r.isLt
    have h1 : (r : ℕ) * N + (n : ℕ) < ((r : ℕ) + 1) * N := by
      rw [Nat.add_mul, Nat.one_mul]; omega
    exact lt_of_lt_of_le h1 (Nat.mul_le_mul_right N (Nat.succ_le_of_lt hr))⟩

/-- Row-major flattening `(r, n) ↦ r * N + n` is a bijection between index
pairs and flattened indices; its inverse is `(rowOrd, rowEp)`. -/
def rowIdxEquiv (R N : ℕ) : Fin R × Fin N ≃ Fin (R * N) where
  toFun p := rowIdx R N p.1 p.2
  invFun i := (rowOrd R N i, rowEp R N i)
  left_inv p := by
    obtain ⟨r, n⟩ := p
    have hN : 0 < N := lt_of_le_of_lt (Nat.zero_le _) n.isLt
    have hval : ((rowIdx R N r n : Fin (R * N)) : ℕ) = (n : ℕ) + N * (r : ℕ) := by
      simp [rowIdx]; ring
    have hdiv : ((rowIdx R N r n : Fin (R * N)) : ℕ) / N = (r : ℕ) := by
      rw [hval, Nat.add_mul_div_left _ _ hN, Nat.div_eq_of_lt n.isLt, Nat.zero_add]
    have hmod : ((rowIdx R N r n : Fin (R * N)) : ℕ) % N = (n : ℕ) := by
      rw [hval, Nat.add_mul_mod_self_left, Nat.mod_eq_of_lt n.isLt]
    refine Prod.ext ?_ ?_
    · exact Fin.ext hdiv
    · exact Fin.ext hmod
  right_inv i := by
    apply Fin.ext
    simp only [rowIdx, rowOrd, rowEp]
    rw [Nat.mul_comm]
    exact Nat.div_add_mod _ _

/-- Design matrix of `get_design_matrix`: an `R*N × (N+R)` zero matrix where
row `i` has a `1` in column `Ns.flatten()[i] = i % N` and a `1` in column
`N + Rs.flatten()[i] = N + i / N`. -/
def designM (K : Type) [Field K] (R N : ℕ) : Matrix (Fin (R * N)) (Fin (N + R)) K :=
  Matrix.of fun i j =>
    (if (j : ℕ) = (rowEp R N i : ℕ) then 1 else 0) +
      (if (j : ℕ) = N + (rowOrd R N i : ℕ) then 1 else 0)

/-- Augmented design matrix used inside `lnlike_sigmas`: `get_design_matrix`
plus the appended constraint row `something`, which is zero in the first `N`
columns and `1/R` in the last `R` columns. -/
def Maug (K : Type) [Field K] (R N : ℕ) : Matrix (Fin (R * N + 1)) (Fin (N + R)) K :=
  Matrix.of fun i j =>
    if h : (i : ℕ) < R * N then designM K R N ⟨(i : ℕ), h⟩ j
    else if N ≤ (j : ℕ) then (R : K)⁻¹ else 0

/-- Effective inverse variances `ivars = 1 / (1 / all_ivars + sigmas[Rs]**2)`
from `lnlike_sigmas`, before flattening. -/
def ivarsM (K : Type) [Field K] (R N : ℕ) (W : Matrix (Fin R) (Fin N) K)
    (sig : Fin R → K) : Matrix (Fin R) (Fin N) K :=
  Matrix.of fun r n => 1 / (1 / W r n + sig r ^ 2)

/-- Flattened effective inverse variances with the appended last datum of
precision `1.` (`ivars = np.append(ivars, 1.)`). -/
def ivarsVec (K : Type) [Field K] (R N : ℕ) (W : Matrix (Fin R) (Fin N) K)
    (sig : Fin R → K) : Fin (R * N + 1) → K :=
  fun i =>
    if h : (i : ℕ) < R * N then
      ivarsM K R N W sig (rowOrd R N ⟨(i : ℕ), h⟩) (rowEp R N ⟨(i : ℕ), h⟩)
    else 1

/-- Flattened data vector with the appended last datum of value `0.`
(`ys = np.append(self.all_rvs.flatten(), 0.)`). -/
def yVec (K : Type) [Field K] (R N : ℕ) (A : Matrix (Fin R) (Fin N) K) :
    Fin (R * N + 1) → K :=
  fun i =>
    if h : (i : ℕ) < R * N then A (rowOrd R N ⟨(i : ℕ), h⟩) (rowEp R N ⟨(i : ℕ), h⟩)
    else 0

/-- Normal-equations matrix `MTM = np.dot(M.T, ivars[:, None] * M)`. -/
def mTm (K : Type) [Field K] (R N : ℕ) (W : Matrix (Fin R) (Fin N) K)
    (sig : Fin R → K) : Matrix (Fin (N + R)) (Fin (N + R)) K :=
  (Maug K R N)ᵀ * Matrix.of fun i j => ivarsVec K R N W sig i * Maug K R N i j

/-- Normal-equations right-hand side `MTy = np.dot(M.T, ivars * ys)`. -/
def mTy (K : Type) [Field K] (R N : ℕ) (A W : Matrix (Fin R) (Fin N) K)
    (sig : Fin R → K) : Fin (N + R) → K :=
  (Maug K R N)ᵀ.mulVec fun i => ivarsVec K R N W sig i * yVec K R N A i

/-- The vector `xs` returned by `xs = np.linalg.solve(MTM, MTy)` satisfies the
normal equations; when `MTM` is non-singular it is the unique such vector. -/
def solves (K : Type) [Field K] (R N : ℕ) (A W : Matrix (Fin R) (Fin N) K)
    (sig : Fin R → K) (xs : Fin (N + R) → K) : Prop :=
  (mTm K R N W sig).mulVec xs = mTy K R N A W sig

/-- Per-epoch RVs `xs[:self.N]` returned by `lnlike_sigmas`. -/
def timeRvs (K : Type) [Field K] (R N : ℕ) (xs : Fin (N + R) → K) : Fin N → K :=
  fun n => xs (Fin.castAdd R n)

/-- Per-order RVs `xs[self.N:]` returned by `lnlike_sigmas`. -/
def orderRvs (K : Type) [Field K] (R N : ℕ) (xs : Fin (N + R) → K) : Fin R → K :=
  fun r => xs (Fin.natAdd N r)

/-- Residuals `resids = ys - np.dot(M, xs)` from `lnlike_sigmas`. -/
def residVec (K : Type) [Field K] (R N : ℕ) (A : Matrix (Fin R) (Fin N) K)
    (xs : Fin (N + R) → K) : Fin (R * N + 1) → K :=
  fun i => yVec K R N A i - (Maug K R N).mulVec xs i

/-- The scalar returned by `lnlike_sigmas`:
`lnlike = -0.5 * np.sum(resids * ivars * resids - np.log(2. * np.pi * ivars))`. -/
noncomputable def lnlikeED (R N : ℕ) (A W : Matrix (Fin R) (Fin N) ℝ) (sig : Fin R → ℝ)
    (xs : Fin (N + R) → ℝ) : ℝ :=
  -0.5 * ∑ i : Fin (R * N + 1),
      (residVec ℝ R N A xs i * ivarsVec ℝ R N W sig i * residVec ℝ R N A xs i -
        Real.log (2 * Real.pi * ivarsVec ℝ R N W sig i))

/-- Gaussian log-likelihood written the way §4.2 and §4.4 of the spec state
it: a sum over the `R × N` data grid of `resid² · ivar − log(2π · ivar)` with
`ivar[r,n] = 1/(1/W[r,n] + σ[r]²)` and `resid[r,n] = A[r,n] − (tv[n] + ov[r])`,
plus the appended synthetic datum of value 0 and precision 1 whose prediction
is the mean of the order velocities. Used only to compare against the code's
`lnlikeED`. -/
noncomputable def lnlikeSpec (R N : ℕ) (A W : Matrix (Fin R) (Fin N) ℝ)
    (sig : Fin R → ℝ) (tv : Fin N → ℝ) (ov : Fin R → ℝ) : ℝ :=
  -0.5 *
    ((∑ r : Fin R, ∑ n : Fin N,
        ((A r n - (tv n + ov r)) ^ 2 * (1 / (1 / W r n + sig r ^ 2)) -
          Real.log (2 * Real.pi * (1 / (1 / W r n + sig r ^ 2))))) +
      ((0 - (R : ℝ)⁻¹ * ∑ r : Fin R, ov r) ^ 2 * 1 - Real.log (2 * Real.pi * 1)))

/-- Effective inverse variances as claim C1 describes them: the optimizer's
parameter vector `p` read as log-variances, so `exp(p[r])` is added to
`1/W[r,n]`. Modelled from the spec's words, for comparison with `ivarsM`. -/
noncomputable def ivarsClaimC1 (R N : ℕ) (W : Matrix (Fin R) (Fin N) ℝ)
    (p : Fin R → ℝ) : Matrix (Fin R) (Fin N) ℝ :=
  Matrix.of fun r n => 1 / (1 / W r n + Real.exp (p r))

/-- State-passing embedding of `get_design_matrix`: the cached `self.M` is the
state. If the cache is `None` or `restart` is set, the matrix is rebuilt and
stored; otherwise the cached matrix is returned and the cache is untouched. -/
def getDesignMatrixSt (K : Type) [Field K] (R N : ℕ) (restart : Bool)
    (c : Option (Matrix (Fin (R * N)) (Fin (N + R)) K)) :
    Matrix (Fin (R * N)) (Fin (N + R)) K × Option (Matrix (Fin (R * N)) (Fin (N + R)) K) :=
  match c, restart with
  | some m, false => (m, some m)
  | _, _ => (designM K R N, some (designM K R N))

/-! ### Untyped shape-carrying embedding

`lnlike_sigmas` performs no validation of the shapes of `self.all_rvs` and
`self.all_ivars` against `(self.R, self.N)`; the only fail-fast guard is
`assert len(sigmas) == self.R`. To settle the error-handling claims we embed
the routine a second time over explicitly shaped arrays with numpy's 2-D
broadcasting rules, up to (but not including) the `np.linalg.solve` call. -/

/-- A 2-D numpy array: a shape and an entry function (row-major semantics;
entries outside the shape are junk and never read). -/
structure NArr (K : Type) where
  rows : ℕ
  cols : ℕ
  entry : ℕ → ℕ → K

/-- Numpy broadcast of two axis lengths: equal lengths broadcast to
themselves and a length-1 axis stretches to the other; anything else is a
broadcast failure. -/
def bdim (a b : ℕ) : Option ℕ :=
  if a = b then some a else if a = 1 then some b else if b = 1 then some a else none

/-- Elementwise reciprocal `1. / W` (same shape). -/
def recipA (K : Type) [One K] [Div K] (X : NArr K) : NArr K :=
  ⟨X.rows, X.cols, fun i j => 1 / X.entry i j⟩

/-- The array `sigmas[Rs]**2`: `Rs` has shape `(R, N)` with row index `r`, so
this is always an `R × N` array whose `(r, n)` entry is `sigmas[r]²`. -/
def sigSq (K : Type) [Zero K] [Mul K] (R N : ℕ) (s : List K) : NArr K :=
  ⟨R, N, fun i _ => s.getD i 0 * s.getD i 0⟩

/-- Broadcasting elementwise addition of two 2-D arrays (numpy `+`): `none`
when the shapes are not broadcast-compatible. A length-1 axis is read at
index `i % 1 = 0`. -/
def addB (K : Type) [Add K] (X Y : NArr K) : Option (NArr K) :=
  match bdim X.rows Y.rows, bdim X.cols Y.cols with
  | some r, some c =>
      some ⟨r, c, fun i j =>
        X.entry (i % X.rows) (j % X.cols) + Y.entry (i % Y.rows) (j % Y.cols)⟩
  | _, _ => none

/-- Row-major `.flatten()`. -/
def flattenA (K : Type) (X : NArr K) : List K :=
  (List.range (X.rows * X.cols)).map fun i => X.entry (i / X.cols) (i % X.cols)

/-- Sum of `f 0 + ... + f (n-1)`. -/
def sumRange (K : Type) [Add K] [Zero K] (n : ℕ) (f : ℕ → K) : K :=
  ((List.range n).map f).sum

/-- The augmented design matrix of `lnlike_sigmas` as an untyped array:
`get_design_matrix` plus the appended constraint row. -/
def designA (K : Type) [Zero K] [One K] [Add K] [Inv K] [NatCast K] (R N : ℕ) : NArr K :=
  ⟨R * N + 1, N + R, fun i j =>
    if i < R * N then
      (if j = i % N then 1 else 0) + (if j = N + i / N then 1 else 0)
    else if N ≤ j then (R : K)⁻¹ else 0⟩

/-- Entries of `MTM = np.dot(M.T, ivars[:, None] * M)` as a list of rows
(`ivars` read with broadcasting when it has length 1). -/
def mtmList (K : Type) [Zero K] [One K] [Add K] [Mul K] [Inv K] [NatCast K]
    (R N : ℕ) (ivars : List K) : List (List K) :=
  (List.range (N + R)).map fun a =>
    (List.range (N + R)).map fun b =>
      sumRange K (R * N + 1) fun i =>
        (designA K R N).entry i a * (ivars.getD (i % ivars.length) 0 * (designA K R N).entry i b)

/-- Entries of `MTy = np.dot(M.T, ivars * ys)` (elementwise product read with
broadcasting when one operand has length 1). -/
def mtyList (K : Type) [Zero K] [One K] [Add K] [Mul K] [Inv K] [NatCast K]
    (R N : ℕ) (ivars ys : List K) : List K :=
  (List.range (N + R)).map fun a =>
    sumRange K (R * N + 1) fun i =>
      (designA K R N).entry i a *
        (ivars.getD (i % ivars.length) 0 * ys.getD (i % ys.length) 0)

/-- Failures that can occur in `lnlike_sigmas` before the linear solve:
the entry assertion `assert len(sigmas) == self.R`, or a numpy broadcast
error when array shapes are incompatible. -/
inductive PrepErr where
  | assertFail
  | broadcastError
deriving DecidableEq

/-- `lnlike_sigmas` embedded up to the point where `np.linalg.solve(MTM, MTy)`
is about to run, over explicitly shaped arrays `A = self.all_rvs` and
`W = self.all_ivars`. Mirrors the source order: the sigma-length assertion,
the design matrix with appended constraint row, `ivars = 1/(1/W + sigmas[Rs]**2)`
(a broadcasting add), flattening and appending the last datum to `ivars` and
`ys`, then the shape conditions numpy imposes while forming
`ivars[:, None] * M`, `ivars * ys` and the two `np.dot` products. -/
def prepNormalEq (K : Type) [Zero K] [One K] [Add K] [Mul K] [Div K] [Inv K] [NatCast K]
    (R N : ℕ) (A W : NArr K) (sigmas : List K) :
    Except PrepErr (List (List K) × List K) :=
  if sigmas.length = R then
    match addB K (recipA K W) (sigSq K R N sigmas) with
    | none => .error .broadcastError
    | some iv2 =>
        let ivars := flattenA K iv2 ++ [1]
        let ys := flattenA K A ++ [0]
        if ivars.length = R * N + 1 ∨ ivars.length = 1 then
          if ivars.length = ys.length ∨ ivars.length = 1 ∨ ys.length = 1 then
            if max ivars.length ys.length = R * N + 1 then
              .ok (mtmList K R N ivars, mtyList K R N ivars ys)
            else .error .broadcastError
          else .error .broadcastError
        else .error .broadcastError
  else .error .assertFail

/-- Float-like scalar for the NaN/Inf claims: a finite rational or a
non-finite value (NaN or ±Inf, which the claims treat alike). Arithmetic
propagates non-finite operands, and division by zero is non-finite. -/
inductive FQ where
  | fin (q : ℚ)
  | nonfinite
deriving DecidableEq

instance : Zero FQ := ⟨.fin 0⟩

instance : One FQ := ⟨.fin 1⟩

instance : Add FQ :=
  ⟨fun a b =>
    match a, b with
    | .fin x, .fin y => .fin (x + y)
    | _, _ => .nonfinite⟩

instance : Mul FQ :=
  ⟨fun a b =>
    match a, b with
    | .fin x, .fin y => .fin (x * y)
    | _, _ => .nonfinite⟩

instance : Div FQ :=
  ⟨fun a b =>
    match a, b with
    | .fin x, .fin y => if y = 0 then .nonfinite else .fin (x / y)
    | _, _ => .nonfinite⟩

instance : Inv FQ :=
  ⟨fun a =>
    match a with
    | .fin x => if x = 0 then .nonfinite else .fin x⁻¹
    | _ => .nonfinite⟩

instance : NatCast FQ := ⟨fun n => .fin n⟩

/-- Finiteness test on float-like values (`np.isfinite`). -/
def FQ.isFin : FQ → Bool
  | .fin _ => true
  | .nonfinite => false

/-! ### Attribute-level embedding of the `Results` object

`combine_orders` and `add_component` manipulate dynamically named attributes
via `setattr`/`getattr`/`delattr`. We model the attribute namespace with a
structured key type: the fixed transient names `M`, `all_rvs`, `all_ivars`,
per-component names `basename + field` (with `basename = name + '_'`), and
a catch-all for every other attribute. Attribute values are opaque payloads:
the frame claims never depend on the numerical content beyond array lengths. -/

/-- An attribute name on a `Results` object. -/
inductive Attr where
  | M
  | all_rvs
  | all_ivars
  | comp (base : String) (field : String)
  | other (s : String)
deriving DecidableEq

/-- An attribute value: a 1-D array of rationals, an `R × N` NaN-filled
array, a length-`R` list of zeros, Python `None`, or anything else. -/
inductive Val where
  | arr (xs : List ℚ)
  | nanMat (R N : ℕ)
  | zlist (R : ℕ)
  | pyNone
  | design
deriving DecidableEq

/-- The attribute dictionary of a `Results` object: `none` means the
attribute does not exist. -/
def AttrMap : Type := Attr → Option Val

/-- The attribute effects of `combine_orders(component_name)`, in source
order: `self.all_rvs`/`self.all_ivars` are set from the component's `rvs`
and `ivars` attributes, `self.M = None`, the optimizer's calls to
`lnlike_sigmas` cache the design matrix in `self.M`, the three result
attributes are set from the final solve (`xs[:N]`, `xs[N:]`, the optimized
sigmas), and finally `M`, `all_rvs` and `all_ivars` are deleted. The
numerical payloads `xs` (the final solve's solution vector) and `soln`
(the optimizer's output, one sigma per order) are parameters. -/
def combineOrdersAttrs (N : ℕ) (name : String) (xs soln : List ℚ) (st : AttrMap) : AttrMap :=
  let s1 := Function.update st Attr.all_rvs (st (Attr.comp name ("rvs")))
  let s2 := Function.update s1 Attr.all_ivars (s1 (Attr.comp name ("ivars")))
  let s3 := Function.update s2 Attr.M (some Val.pyNone)
  let s4 := Function.update s3 Attr.M (some Val.design)
  let s5 := Function.update s4 (Attr.comp name ("time_rvs")) (some (Val.arr (xs.take N)))
  let s6 := Function.update s5 (Attr.comp name ("order_rvs")) (some (Val.arr (xs.drop N)))
  let s7 := Function.update s6 (Attr.comp name ("order_sigmas")) (some (Val.arr soln))
  let s8 := Function.update s7 Attr.M none
  let s9 := Function.update s8 Attr.all_rvs none
  Function.update s9 Attr.all_ivars none

/-- `COMPONENT_NP_ATTRS` from `results.py`. -/
def componentNpAttrs : List String :=
  ["K", "r", "rvs_fixed", "scale_by_airmass", "learning_rate_rvs",
    "learning_rate_template", "learning_rate_basis", "L1_template",
    "L2_template", "L1_basis_vectors", "L2_basis_vectors", "L2_basis_weights"]

/-- The externally visible state of a `Results` object for the component
bookkeeping claims: the component-name registry plus the attribute map. -/
structure ResState where
  component_names : List String
  attrs : AttrMap

/-- `add_component(c)` for a component named `cname` on a `Results` object
with `R` orders and `N` epochs. If the name is already registered the call
only prints a message and returns; otherwise it appends the name and
initializes the per-component attributes exactly as the source does. -/
def addComponent (R N : ℕ) (cname : String) (st : ResState) : ResState :=
  if cname ∈ st.component_names then st
  else
    { component_names := st.component_names ++ [cname]
      attrs :=
        componentNpAttrs.foldl
          (fun m f => Function.update m (Attr.comp cname f) (some (Val.zlist R)))
          (Function.update
            (Function.update
              (Function.update
                (Function.update
                  (Function.update
                    (Function.update
                      (Function.update st.attrs (Attr.comp cname ("rvs"))
                        (some (Val.nanMat R N)))
                      (Attr.comp cname ("ivars")) (some (Val.nanMat R N)))
                    (Attr.comp cname ("template_xs")) (some (Val.zlist R)))
                  (Attr.comp cname ("template_ys")) (some (Val.zlist R)))
                (Attr.comp cname ("basis_vectors")) (some (Val.zlist R)))
              (Attr.comp cname ("basis_weights")) (some (Val.zlist R)))
            (Attr.comp cname ("ys_predicted")) (some (Val.zlist R))) }

/-! ### Helper lemmas -/

/-- Row `i` of the data block of the design matrix picks out the epoch column
`i % N` and the order column `N + i / N`. -/
theorem designM_row (K : Type) [Field K] (R N : ℕ) (i : Fin (R * N))
    (v : Fin (N + R) → K) :
    ∑ j, designM K R N i j * v j =
      v (Fin.castAdd R (rowEp R N i)) + v (Fin.natAdd N (rowOrd R N i)) := by
  have key : ∀ j : Fin (N + R),
      designM K R N i j * v j =
        (if j = Fin.castAdd R (rowEp R N i) then v j else 0) +
          (if j = Fin.natAdd N (rowOrd R N i) then v j else 0) := by
    intro j
    have hc1 : ((j : ℕ) = (rowEp R N i : ℕ)) ↔ j = Fin.castAdd R (rowEp R N i) := by
      rw [Fin.ext_iff, Fin.coe_castAdd]
    have hc2 : ((j : ℕ) = N + (rowOrd R N i : ℕ)) ↔ j = Fin.natAdd N (rowOrd R N i) := by
      rw [Fin.ext_iff, Fin.coe_natAdd]
    simp only [designM, Matrix.of_apply, add_mul, ite_mul, one_mul, zero_mul]
    rw [if_congr hc1 rfl rfl, if_congr hc2 rfl rfl]
  rw [Finset.sum_congr rfl fun j _ => key j, Finset.sum_add_distrib,
    Fintype.sum_ite_eq', Fintype.sum_ite_eq']

/-- `M · v` at a data row of the augmented design matrix. -/
theorem maug_row_data (K : Type) [Field K] (R N : ℕ) (i : Fin (R * N + 1))
    (h : (i : ℕ) < R * N) (v : Fin (N + R) → K) :
    (Maug K R N).mulVec v i =
      v (Fin.castAdd R (rowEp R N ⟨(i : ℕ), h⟩)) +
        v (Fin.natAdd N (rowOrd R N ⟨(i : ℕ), h⟩)) := by
  simp only [Matrix.mulVec, Matrix.dotProduct, Maug, Matrix.of_apply, dif_pos h]
  exact designM_row K R N ⟨(i : ℕ), h⟩ v

/-- `M · v` at the appended constraint row is `1/R` times the sum of the
order-column entries of `v`. -/
theorem maug_row_last (K : Type) [Field K] (R N : ℕ) (i : Fin (R * N + 1))
    (h : ¬(i : ℕ) < R * N) (v : Fin (N + R) → K) :
    (Maug K R N).mulVec v i = (R : K)⁻¹ * ∑ r : Fin R, v (Fin.natAdd N r) := by
  simp only [Matrix.mulVec, Matrix.dotProduct, Maug, Matrix.of_apply, dif_neg h]
  rw [Fin.sum_univ_add]
  have h1 : ∀ n : Fin N,
      (if N ≤ ((Fin.castAdd R n : Fin (N + R)) : ℕ) then (R : K)⁻¹ else 0) *
          v (Fin.castAdd R n) = 0 := by
    intro n
    rw [Fin.coe_castAdd, if_neg (not_le.mpr n.isLt), zero_mul]
  have h2 : ∀ r : Fin R,
      (if N ≤ ((Fin.natAdd N r : Fin (N + R)) : ℕ) then (R : K)⁻¹ else 0) *
          v (Fin.natAdd N r) = (R : K)⁻¹ * v (Fin.natAdd N r) := by
    intro r
    rw [Fin.coe_natAdd, if_pos (Nat.le_add_right N r)]
  rw [Finset.sum_eq_zero fun n _ => h1 n, zero_add,
    Finset.sum_congr rfl fun r _ => h2 r, ← Finset.mul_sum]

/-- `MTM · xs` factors through the augmented design matrix. -/
theorem mTm_mulVec (K : Type) [Field K] (R N : ℕ) (W : Matrix (Fin R) (Fin N) K)
    (sig : Fin R → K) (xs : Fin (N + R) → K) :
    (mTm K R N W sig).mulVec xs =
      (Maug K R N)ᵀ.mulVec fun i =>
        ivarsVec K R N W sig i * (Maug K R N).mulVec xs i := by
  unfold mTm
  rw [← Matrix.mulVec_mulVec]
  funext i
  simp only [Matrix.mulVec, Matrix.dotProduct, Matrix.of_apply, Finset.mul_sum, mul_assoc]

/-- Dot products against `Mᵀ · w` become weighted sums over the rows of `M`. -/
theorem dot_maugT (K : Type) [Field K] (R N : ℕ) (u : Fin (N + R) → K)
    (w : Fin (R * N + 1) → K) :
    u ⬝ᵥ (Maug K R N)ᵀ.mulVec w = ∑ i, (Maug K R N).mulVec u i * w i := by
  rw [Matrix.dotProduct_mulVec, Matrix.vecMul_transpose]
  rfl

/-- The appended datum has precision `1`. -/
theorem ivarsVec_last (K : Type) [Field K] (R N : ℕ) (W : Matrix (Fin R) (Fin N) K)
    (sig : Fin R → K) : ivarsVec K R N W sig (Fin.last (R * N)) = 1 := by
  simp [ivarsVec]

/-- The appended datum has value `0`. -/
theorem yVec_last (K : Type) [Field K] (R N : ℕ) (A : Matrix (Fin R) (Fin N) K) :
    yVec K R N A (Fin.last (R * N)) = 0 := by
  simp [yVec]

/-- A sum weighted by the indicator of the appended row collapses to the
last term. -/
theorem sum_ind_last (K : Type) [Field K] (m : ℕ) (g : Fin (m + 1) → K) :
    (∑ i : Fin (m + 1), (if (i : ℕ) < m then 0 else 1 : K) * g i) = g (Fin.last m) := by
  rw [Fin.sum_univ_castSucc]
  have h1 : ∀ i : Fin m,
      (if ((Fin.castSucc i : Fin (m + 1)) : ℕ) < m then (0 : K) else 1) * g i.castSucc = 0 := by
    intro i
    rw [Fin.coe_castSucc, if_pos i.isLt, zero_mul]
  rw [Finset.sum_eq_zero fun i _ => h1 i, zero_add, Fin.val_last,
    if_neg (lt_irrefl m), one_mul]

/-- Row-major flattening then taking the order index recovers the order. -/
theorem rowOrd_rowIdx (R N : ℕ) (r : Fin R) (n : Fin N) :
    rowOrd R N (rowIdx R N r n) = r := by
  have hN : 0 < N := lt_of_le_of_lt (Nat.zero_le _) n.isLt
  apply Fin.ext
  show ((r : ℕ) * N + (n : ℕ)) / N = (r : ℕ)
  rw [show (r : ℕ) * N + (n : ℕ) = (n : ℕ) + N * (r : ℕ) from by ring,
    Nat.add_mul_div_left _ _ hN, Nat.div_eq_of_lt n.isLt, Nat.zero_add]

/-- Row-major flattening then taking the epoch index recovers the epoch. -/
theorem rowEp_rowIdx (R N : ℕ) (r : Fin R) (n : Fin N) :
    rowEp R N (rowIdx R N r n) = n := by
  apply Fin.ext
  show ((r : ℕ) * N + (n : ℕ)) % N = (n : ℕ)
  rw [show (r : ℕ) * N + (n : ℕ) = (n : ℕ) + N * (r : ℕ) from by ring,
    Nat.add_mul_mod_self_left, Nat.mod_eq_of_lt n.isLt]

/-- With all-zero data the zero vector solves the normal equations. -/
theorem solves_zero (K : Type) [Field K] (R N : ℕ) (W : Matrix (Fin R) (Fin N) K)
    (sig : Fin R → K) : solves K R N 0 W sig 0 := by
  show (mTm K R N W sig).mulVec 0 = mTy K R N 0 W sig
  rw [Matrix.mulVec_zero]
  unfold mTy
  have hy : (fun i => ivarsVec K R N W sig i * yVec K R N 0 i) = fun _ => (0 : K) := by
    funext i
    simp [yVec]
  rw [hy]
  exact (Matrix.mulVec_zero _).symm

/-! ### Claim theorems -/

/-- C2: for every `R ≥ 1` and `N ≥ 1` the augmented design matrix has shape
`[R·N+1, N+R]` (by its type) and is zero everywhere except that the data row
with flattened index `i = r·N + n` has `M[i, n] = 1` and `M[i, N+r] = 1`, and
the final appended row has `1/R` in each of the last `R` columns and zero
elsewhere. -/
theorem design_matrix_entries (R N : ℕ) (hR : 1 ≤ R) (hN : 1 ≤ N)
    (r n : ℕ) (hr : r < R) (hn : n < N) :
    (∀ j : Fin (N + R),
        Maug ℚ R N
            ⟨r * N + n, by
              have h1 : r * N + n < (r + 1) * N := by rw [Nat.add_mul, Nat.one_mul]; omega
              have h2 : (r + 1) * N ≤ R * N := Nat.mul_le_mul_right N (Nat.succ_le_of_lt hr)
              omega⟩ j =
          (if (j : ℕ) = n then 1 else 0) + (if (j : ℕ) = N + r then 1 else 0)) ∧
      ∀ j : Fin (N + R),
        Maug ℚ R N ⟨R * N, Nat.lt_succ_self _⟩ j =
          if N ≤ (j : ℕ) then 1 / (R : ℚ) else 0 := by
  have hNpos : 0 < N := hN
  have hsplit : r * N + n = n + N * r := by ring
  have hmod : (r * N + n) % N = n := by
    rw [hsplit, Nat.add_mul_mod_self_left, Nat.mod_eq_of_lt hn]
  have hdiv : (r * N + n) / N = r := by
    rw [hsplit, Nat.add_mul_div_left _ _ hNpos, Nat.div_eq_of_lt hn, Nat.zero_add]
  have hlt : r * N + n < R * N := by
    have h1 : r * N + n < (r + 1) * N := by rw [Nat.add_mul, Nat.one_mul]; omega
    have h2 : (r + 1) * N ≤ R * N := Nat.mul_le_mul_right N (Nat.succ_le_of_lt hr)
    omega
  constructor
  · intro j
    simp only [Maug, designM, Matrix.of_apply, rowEp, rowOrd]
    rw [dif_pos hlt]
    simp only [hmod, hdiv]
  · intro j
    simp only [Maug, Matrix.of_apply]
    rw [dif_neg (lt_irrefl (R * N)), one_div]

/-- Witness for `design_matrix_entries` at `R = 2`, `N = 3`, `r = 1`, `n = 2`. -/
theorem design_matrix_entries_witness :
    ((1 : ℕ) ≤ 2 ∧ (1 : ℕ) ≤ 3 ∧ 1 < 2 ∧ 2 < 3) ∧
      ((∀ j : Fin (3 + 2),
          Maug ℚ 2 3 ⟨1 * 3 + 2, by omega⟩ j =
            (if (j : ℕ) = 2 then 1 else 0) + (if (j : ℕ) = 3 + 1 then 1 else 0)) ∧
        ∀ j : Fin (3 + 2),
          Maug ℚ 2 3 ⟨2 * 3, Nat.lt_succ_self _⟩ j =
            if 3 ≤ (j : ℕ) then 1 / (2 : ℚ) else 0) :=
  ⟨by omega, design_matrix_entries 2 3 (by omega) (by omega) 1 2 (by omega) (by omega)⟩

/-- C3: any solution of the augmented normal equations has order RVs with
mean exactly zero, for every data matrix, weight matrix and sigma vector. -/
theorem order_rvs_mean_zero (R N : ℕ) (hR : 0 < R)
    (A W : Matrix (Fin R) (Fin N) ℚ) (sig : Fin R → ℚ) (xs : Fin (N + R) → ℚ)
    (hxs : solves ℚ R N A W sig xs) :
    (∑ r, orderRvs ℚ R N xs r) / (R : ℚ) = 0 := by
  classical
  set d : Fin (N + R) → ℚ := fun j => if (j : ℕ) < N then -1 else 1 with hd
  have hMd : ∀ i, (Maug ℚ R N).mulVec d i = if (i : ℕ) < R * N then 0 else 1 := by
    intro i
    by_cases h : (i : ℕ) < R * N
    · rw [maug_row_data ℚ R N i h d, if_pos h]
      have e1 : d (Fin.castAdd R (rowEp R N ⟨(i : ℕ), h⟩)) = -1 := by
        simp [hd, Fin.coe_castAdd, (rowEp R N ⟨(i : ℕ), h⟩).isLt]
      have e2 : d (Fin.natAdd N (rowOrd R N ⟨(i : ℕ), h⟩)) = 1 := by
        simp [hd, Fin.coe_natAdd]
      rw [e1, e2]; ring
    · rw [maug_row_last ℚ R N i h d, if_neg h]
      have e2 : ∀ q : Fin R, d (Fin.natAdd N q) = 1 := fun q => by
        simp [hd, Fin.coe_natAdd]
      rw [Finset.sum_congr rfl fun q _ => e2 q, Finset.sum_const, Finset.card_univ,
        Fintype.card_fin, nsmul_eq_mul, mul_one]
      exact inv_mul_cancel₀ (Nat.cast_ne_zero.mpr hR.ne')
  have h1 : d ⬝ᵥ (mTm ℚ R N W sig).mulVec xs = d ⬝ᵥ mTy ℚ R N A W sig := by rw [hxs]
  rw [mTm_mulVec ℚ R N W sig xs, dot_maugT] at h1
  unfold mTy at h1
  rw [dot_maugT] at h1
  have h2 : ∀ g : Fin (R * N + 1) → ℚ,
      (∑ i, (Maug ℚ R N).mulVec d i * g i) = g (Fin.last (R * N)) := by
    intro g
    have e : ∀ i, (Maug ℚ R N).mulVec d i * g i =
        (if (i : ℕ) < R * N then 0 else 1 : ℚ) * g i := fun i => by rw [hMd i]
    rw [Finset.sum_congr rfl fun i _ => e i]
    exact sum_ind_last ℚ (R * N) g
  rw [h2, h2] at h1
  rw [ivarsVec_last, yVec_last, one_mul, mul_zero] at h1
  rw [maug_row_last ℚ R N (Fin.last (R * N))
    (by rw [Fin.val_last]; exact lt_irrefl _) xs] at h1
  have hsum : (∑ r, orderRvs ℚ R N xs r) = ∑ r : Fin R, xs (Fin.natAdd N r) := rfl
  rw [hsum, div_eq_mul_inv, mul_comm]
  exact h1

/-- Witness for `order_rvs_mean_zero` at `R = N = 1` with zero data and the
zero solution vector. -/
theorem order_rvs_mean_zero_witness :
    ((0 : ℕ) < 1 ∧
        solves ℚ 1 1 0 (Matrix.of fun _ _ => 1) (fun _ => 0) 0) ∧
      (∑ r, orderRvs ℚ 1 1 (0 : Fin (1 + 1) → ℚ) r) / ((1 : ℕ) : ℚ) = 0 :=
  ⟨⟨by omega, solves_zero ℚ 1 1 (Matrix.of fun _ _ => 1) (fun _ => 0)⟩,
    order_rvs_mean_zero 1 1 (by omega) 0 (Matrix.of fun _ _ => 1)
      (fun _ => 0) 0 (solves_zero ℚ 1 1 (Matrix.of fun _ _ => 1) (fun _ => 0))⟩

/-- C1 counterexample: with `W = 1` and optimizer parameter `p = 1`, the
code's effective inverse variance is `1/(1/1 + 1²) = 1/2`, whereas reading
the parameter as a log-variance (so that `exp(p)` is added to `1/W`) would
give `1/(1 + e)`. The two disagree, so the parameter vector is not
interpreted in log-variance space. -/
theorem ivars_not_exp_of_params :
    ivarsM ℝ 1 1 (Matrix.of fun _ _ => 1) (fun _ => 1) 0 0 ≠
      ivarsClaimC1 1 1 (Matrix.of fun _ _ => 1) (fun _ => 1) 0 0 := by
  simp only [ivarsM, ivarsClaimC1, Matrix.of_apply]
  intro h
  have h1 : (1 : ℝ) < Real.exp 1 := by
    have := Real.exp_one_gt_d9
    linarith
  have h2 : (1 : ℝ) / (1 / 1 + 1 ^ 2) = 1 / 2 := by norm_num
  have h3 : (1 : ℝ) / (1 / 1 + Real.exp 1) = 1 / (1 + Real.exp 1) := by norm_num
  rw [h2, h3] at h
  have hlt : (1 : ℝ) / (1 + Real.exp 1) < 1 / 2 := by
    apply one_div_lt_one_div_of_lt
    · norm_num
    · linarith
  exact (ne_of_gt hlt) h

/-- C1 amended: the parameter vector handed to the optimizer is interpreted
directly as the per-order sigmas: `sigmas[r]²` (not `exp(p[r])`) is added to
`1/W[r,n]`, and with a positive nominal weight the effective variance is
positive for every real-valued parameter vector. -/
theorem ivars_squares_params (R N : ℕ) (W : Matrix (Fin R) (Fin N) ℝ)
    (p : Fin R → ℝ) (r : Fin R) (n : Fin N) (hW : 0 < W r n) :
    ivarsM ℝ R N W p r n = 1 / (1 / W r n + p r ^ 2) ∧ 0 < 1 / W r n + p r ^ 2 := by
  constructor
  · rfl
  · have h1 : 0 < 1 / W r n := by positivity
    have h2 : 0 ≤ p r ^ 2 := sq_nonneg _
    linarith

/-- Witness for `ivars_squares_params` at `R = N = 1`, `W = 1`, `p = 3`. -/
theorem ivars_squares_params_witness :
    (0 : ℝ) < Matrix.of (fun _ _ => (1 : ℝ)) 0 0 ∧
      (ivarsM ℝ 1 1 (Matrix.of fun _ _ => 1) (fun _ => 3) 0 0 =
          1 / (1 / Matrix.of (fun _ _ => (1 : ℝ)) 0 0 + (fun _ : Fin 1 => (3 : ℝ)) 0 ^ 2) ∧
        0 < 1 / Matrix.of (fun _ _ => (1 : ℝ)) 0 0 + (fun _ : Fin 1 => (3 : ℝ)) 0 ^ 2) :=
  ⟨by norm_num [Matrix.of_apply],
    ivars_squares_params 1 1 (Matrix.of fun _ _ => 1) (fun _ => 3) 0 0
      (by norm_num [Matrix.of_apply])⟩

/-- C4: round-trip recovery. For `1 ≤ R, N ≤ 20`, noiseless data
`A[r,n] = t[n] + o[r]` with `∑ o = 0`, strictly positive weights and
`σ = 0`, any solution of the normal equations (hence the vector returned by
the non-singular solve) has `time_rvs = t` and `order_rvs = o` exactly. -/
theorem roundtrip_recovery (R N : ℕ) (hR1 : 1 ≤ R) (hR20 : R ≤ 20)
    (hN1 : 1 ≤ N) (hN20 : N ≤ 20)
    (t : Fin N → ℚ) (o : Fin R → ℚ) (ho : ∑ r, o r = 0)
    (W : Matrix (Fin R) (Fin N) ℚ) (hW : ∀ r n, 0 < W r n)
    (xs : Fin (N + R) → ℚ)
    (hxs : solves ℚ R N (Matrix.of fun r n => t n + o r) W (fun _ => 0) xs) :
    timeRvs ℚ R N xs = t ∧ orderRvs ℚ R N xs = o := by
  classical
  set A : Matrix (Fin R) (Fin N) ℚ := Matrix.of fun r n => t n + o r with hA
  set sig : Fin R → ℚ := fun _ => 0 with hsig
  set x0 : Fin (N + R) → ℚ := fun j =>
    if h : (j : ℕ) < N then t ⟨(j : ℕ), h⟩
    else o ⟨(j : ℕ) - N, by have := j.isLt; omega⟩ with hx0
  have hx0T : ∀ n : Fin N, x0 (Fin.castAdd R n) = t n := by
    intro n
    simp [hx0, Fin.coe_castAdd, n.isLt]
  have hx0O : ∀ r : Fin R, x0 (Fin.natAdd N r) = o r := by
    intro r
    have hnot : ¬(N + (r : ℕ) < N) := by omega
    simp [hx0, Fin.coe_natAdd, hnot]
  have hMx0 : (Maug ℚ R N).mulVec x0 = yVec ℚ R N A := by
    funext i
    by_cases h : (i : ℕ) < R * N
    · rw [maug_row_data ℚ R N i h x0, hx0T, hx0O]
      simp only [yVec]
      rw [dif_pos h]
      simp [hA]
    · rw [maug_row_last ℚ R N i h x0,
        Finset.sum_congr rfl fun r _ => hx0O r, ho, mul_zero]
      simp only [yVec]
      rw [dif_neg h]
  have hx0solves : solves ℚ R N A W sig x0 := by
    unfold solves
    rw [mTm_mulVec, hMx0]
    rfl
  set v : Fin (N + R) → ℚ := xs - x0 with hv
  have hxsE : (mTm ℚ R N W sig).mulVec xs = mTy ℚ R N A W sig := hxs
  have hx0E : (mTm ℚ R N W sig).mulVec x0 = mTy ℚ R N A W sig := hx0solves
  have hMTMv : (mTm ℚ R N W sig).mulVec v = 0 := by
    rw [hv, Matrix.mulVec_sub, hxsE, hx0E, sub_self]
  have hquad : ∑ i, (Maug ℚ R N).mulVec v i *
      (ivarsVec ℚ R N W sig i * (Maug ℚ R N).mulVec v i) = 0 := by
    have h0 : v ⬝ᵥ (mTm ℚ R N W sig).mulVec v = 0 := by
      rw [hMTMv]
      exact Matrix.dotProduct_zero v
    rw [mTm_mulVec, dot_maugT] at h0
    exact h0
  have hivpos : ∀ i, 0 < ivarsVec ℚ R N W sig i := by
    intro i
    unfold ivarsVec
    split
    · next h =>
        simp only [ivarsM, Matrix.of_apply, hsig]
        have hw := hW (rowOrd R N ⟨(i : ℕ), h⟩) (rowEp R N ⟨(i : ℕ), h⟩)
        have e : ((0 : ℚ)) ^ 2 = 0 := by norm_num
        rw [e, add_zero, one_div_one_div]
        exact hw
    · exact one_pos
  have hterm0 : ∀ i, (Maug ℚ R N).mulVec v i = 0 := by
    intro i
    have hnn : ∀ j ∈ Finset.univ, (0 : ℚ) ≤ (Maug ℚ R N).mulVec v j *
        (ivarsVec ℚ R N W sig j * (Maug ℚ R N).mulVec v j) := by
      intro j _
      have e : (Maug ℚ R N).mulVec v j * (ivarsVec ℚ R N W sig j * (Maug ℚ R N).mulVec v j) =
          ivarsVec ℚ R N W sig j * ((Maug ℚ R N).mulVec v j * (Maug ℚ R N).mulVec v j) := by
        ring
      rw [e]
      exact mul_nonneg (le_of_lt (hivpos j)) (mul_self_nonneg _)
    have key := (Finset.sum_eq_zero_iff_of_nonneg hnn).mp hquad i (Finset.mem_univ i)
    have e : (Maug ℚ R N).mulVec v i * (ivarsVec ℚ R N W sig i * (Maug ℚ R N).mulVec v i) =
        ivarsVec ℚ R N W sig i * ((Maug ℚ R N).mulVec v i * (Maug ℚ R N).mulVec v i) := by
      ring
    rw [e] at key
    rcases mul_eq_zero.mp key with h3 | h3
    · exact absurd h3 (ne_of_gt (hivpos i))
    · exact mul_self_eq_zero.mp h3
  have hpair : ∀ (r : Fin R) (n : Fin N),
      v (Fin.castAdd R n) + v (Fin.natAdd N r) = 0 := by
    intro r n
    have hlt : ((Fin.castSucc (rowIdx R N r n) : Fin (R * N + 1)) : ℕ) < R * N := by
      rw [Fin.coe_castSucc]
      exact (rowIdx R N r n).isLt
    have hz := hterm0 (Fin.castSucc (rowIdx R N r n))
    rw [maug_row_data ℚ R N _ hlt v] at hz
    have heq : (⟨((Fin.castSucc (rowIdx R N r n) : Fin (R * N + 1)) : ℕ), hlt⟩ :
        Fin (R * N)) = rowIdx R N r n := Fin.ext (by rw [Fin.coe_castSucc])
    rw [heq, rowEp_rowIdx, rowOrd_rowIdx] at hz
    exact hz
  have hlastv : ∑ r : Fin R, v (Fin.natAdd N r) = 0 := by
    have h := hterm0 (Fin.last (R * N))
    rw [maug_row_last ℚ R N _ (by rw [Fin.val_last]; exact lt_irrefl _) v] at h
    rcases mul_eq_zero.mp h with h1 | h1
    · exact absurd h1 (inv_ne_zero (Nat.cast_ne_zero.mpr (by omega)))
    · exact h1
  have hT0 : v (Fin.castAdd R (⟨0, hN1⟩ : Fin N)) = 0 := by
    have hallO : ∀ r : Fin R, v (Fin.natAdd N r) = -v (Fin.castAdd R (⟨0, hN1⟩ : Fin N)) := by
      intro r
      have := hpair r ⟨0, hN1⟩
      linarith
    have hs : (0 : ℚ) = ∑ r : Fin R, -v (Fin.castAdd R (⟨0, hN1⟩ : Fin N)) := by
      rw [← hlastv]
      exact Finset.sum_congr rfl fun r _ => hallO r
    rw [Finset.sum_const, Finset.card_univ, Fintype.card_fin, nsmul_eq_mul] at hs
    have hRne : ((R : ℚ)) ≠ 0 := Nat.cast_ne_zero.mpr (by omega)
    rcases mul_eq_zero.mp hs.symm with h | h
    · exact absurd h hRne
    · linarith
  have hO0 : ∀ r : Fin R, v (Fin.natAdd N r) = 0 := by
    intro r
    have := hpair r ⟨0, hN1⟩
    rw [hT0] at this
    linarith
  have hTall : ∀ n : Fin N, v (Fin.castAdd R n) = 0 := by
    intro n
    have := hpair ⟨0, by omega⟩ n
    rw [hO0] at this
    linarith
  constructor
  · funext n
    have h1 : xs (Fin.castAdd R n) - x0 (Fin.castAdd R n) = 0 := hTall n
    have h2 : xs (Fin.castAdd R n) = x0 (Fin.castAdd R n) := by linarith
    show xs (Fin.castAdd R n) = t n
    rw [h2, hx0T]
  · funext r
    have h1 : xs (Fin.natAdd N r) - x0 (Fin.natAdd N r) = 0 := hO0 r
    have h2 : xs (Fin.natAdd N r) = x0 (Fin.natAdd N r) := by linarith
    show xs (Fin.natAdd N r) = o r
    rw [h2, hx0O]

/-- Witness for `roundtrip_recovery` at `R = N = 1` with `t = o = 0`,
unit weights and the zero solution vector. -/
theorem roundtrip_recovery_witness :
    ((1 : ℕ) ≤ 1 ∧ (1 : ℕ) ≤ 20 ∧
        (∑ r : Fin 1, (fun _ : Fin 1 => (0 : ℚ)) r) = 0 ∧
        (∀ r n : Fin 1, 0 < Matrix.of (fun _ _ => (1 : ℚ)) r n) ∧
        solves ℚ 1 1
          (Matrix.of fun r n => (fun _ : Fin 1 => (0 : ℚ)) n + (fun _ : Fin 1 => (0 : ℚ)) r)
          (Matrix.of fun _ _ => 1) (fun _ => 0) 0) ∧
      timeRvs ℚ 1 1 0 = (fun _ : Fin 1 => (0 : ℚ)) ∧
        orderRvs ℚ 1 1 0 = fun _ : Fin 1 => (0 : ℚ) := by
  have hs : solves ℚ 1 1
      (Matrix.of fun r n => (fun _ : Fin 1 => (0 : ℚ)) n + (fun _ : Fin 1 => (0 : ℚ)) r)
      (Matrix.of fun _ _ => 1) (fun _ => 0) 0 := by
    rw [show (Matrix.of fun r n => (fun _ : Fin 1 => (0 : ℚ)) n + (fun _ : Fin 1 => (0 : ℚ)) r) =
        (0 : Matrix (Fin 1) (Fin 1) ℚ) from by funext a b; simp]
    exact solves_zero ℚ 1 1 (Matrix.of fun _ _ => 1) (fun _ => 0)
  refine ⟨⟨by omega, by omega, by simp, fun r n => by norm_num [Matrix.of_apply], hs⟩, ?_⟩
  exact roundtrip_recovery 1 1 (by omega) (by omega) (by omega) (by omega)
    (fun _ => 0) (fun _ => 0) (by simp) (Matrix.of fun _ _ => 1)
    (fun r n => by norm_num [Matrix.of_apply]) 0 hs

/-- C5: the scalar computed by `lnlike_sigmas` equals the Gaussian
log-likelihood of the spec, `-0.5 · Σ(resid² · ivar − log(2π · ivar))`, with
`ivar[r,n] = 1/(1/W[r,n] + σ[r]²)`, the data being `A` flattened row-major
with the appended datum of value 0 and precision 1, and residuals taken
against the fit `time_rv[n] + order_rv[r]` (and the mean order RV for the
appended datum) at any solution `x` of the weighted normal equations. -/
theorem lnlike_matches_spec (R N : ℕ) (hR : 0 < R)
    (A W : Matrix (Fin R) (Fin N) ℝ) (sig : Fin R → ℝ) (xs : Fin (N + R) → ℝ)
    (hxs : solves ℝ R N A W sig xs) :
    lnlikeED R N A W sig xs =
      lnlikeSpec R N A W sig (timeRvs ℝ R N xs) (orderRvs ℝ R N xs) := by
  have hdata : ∀ i : Fin (R * N),
      (residVec ℝ R N A xs i.castSucc * ivarsVec ℝ R N W sig i.castSucc *
          residVec ℝ R N A xs i.castSucc -
        Real.log (2 * Real.pi * ivarsVec ℝ R N W sig i.castSucc)) =
      (fun (r : Fin R) (n : Fin N) =>
        (A r n - (timeRvs ℝ R N xs n + orderRvs ℝ R N xs r)) ^ 2 *
            (1 / (1 / W r n + sig r ^ 2)) -
          Real.log (2 * Real.pi * (1 / (1 / W r n + sig r ^ 2))))
        (rowOrd R N i) (rowEp R N i) := by
    intro i
    have hlt : ((i.castSucc : Fin (R * N + 1)) : ℕ) < R * N := by
      rw [Fin.coe_castSucc]
      exact i.isLt
    have hI : (⟨((i.castSucc : Fin (R * N + 1)) : ℕ), hlt⟩ : Fin (R * N)) = i :=
      Fin.ext (by rw [Fin.coe_castSucc])
    have hy : yVec ℝ R N A i.castSucc = A (rowOrd R N i) (rowEp R N i) := by
      simp only [yVec]
      rw [dif_pos hlt, hI]
    have hmv : (Maug ℝ R N).mulVec xs i.castSucc =
        timeRvs ℝ R N xs (rowEp R N i) + orderRvs ℝ R N xs (rowOrd R N i) := by
      rw [maug_row_data ℝ R N _ hlt xs, hI]
      rfl
    have hiv : ivarsVec ℝ R N W sig i.castSucc =
        1 / (1 / W (rowOrd R N i) (rowEp R N i) + sig (rowOrd R N i) ^ 2) := by
      simp only [ivarsVec]
      rw [dif_pos hlt, hI]
      rfl
    simp only [residVec, hy, hmv, hiv]
    ring
  have hre : ∀ G : Fin R → Fin N → ℝ,
      (∑ i : Fin (R * N), G (rowOrd R N i) (rowEp R N i)) = ∑ r, ∑ n, G r n := by
    intro G
    rw [← Equiv.sum_comp (rowIdxEquiv R N) fun i => G (rowOrd R N i) (rowEp R N i),
      Fintype.sum_prod_type]
    refine Finset.sum_congr rfl fun r _ => Finset.sum_congr rfl fun n _ => ?_
    simp only [rowIdxEquiv, Equiv.coe_fn_mk]
    rw [rowOrd_rowIdx, rowEp_rowIdx]
  have hlast : residVec ℝ R N A xs (Fin.last (R * N)) =
      0 - (R : ℝ)⁻¹ * ∑ r, orderRvs ℝ R N xs r := by
    simp only [residVec]
    rw [yVec_last, maug_row_last ℝ R N _ (by rw [Fin.val_last]; exact lt_irrefl _) xs]
    rfl
  unfold lnlikeED lnlikeSpec
  rw [Fin.sum_univ_castSucc]
  congr 1
  congr 1
  · rw [Finset.sum_congr rfl fun i _ => hdata i]
    exact hre fun r n =>
      (A r n - (timeRvs ℝ R N xs n + orderRvs ℝ R N xs r)) ^ 2 *
          (1 / (1 / W r n + sig r ^ 2)) -
        Real.log (2 * Real.pi * (1 / (1 / W r n + sig r ^ 2)))
  · rw [hlast, ivarsVec_last]
    congr 1
    ring

/-- Witness for `lnlike_matches_spec` at `R = N = 1` with zero data, unit
weights, zero sigmas and the zero solution vector. -/
theorem lnlike_matches_spec_witness :
    ((0 : ℕ) < 1 ∧ solves ℝ 1 1 0 (Matrix.of fun _ _ => 1) (fun _ => 0) 0) ∧
      lnlikeED 1 1 0 (Matrix.of fun _ _ => 1) (fun _ => 0) 0 =
        lnlikeSpec 1 1 0 (Matrix.of fun _ _ => 1) (fun _ => 0)
          (timeRvs ℝ 1 1 0) (orderRvs ℝ 1 1 0) :=
  ⟨⟨by omega, solves_zero ℝ 1 1 (Matrix.of fun _ _ => 1) (fun _ => 0)⟩,
    lnlike_matches_spec 1 1 (by omega) 0 (Matrix.of fun _ _ => 1) (fun _ => 0) 0
      (solves_zero ℝ 1 1 (Matrix.of fun _ _ => 1) (fun _ => 0))⟩

/-- C8: the solve depends on the sigma vector only through its squares —
flipping the sign of any subset of entries leaves the effective inverse
variances, the normal-equations (hence the returned `time_rvs`/`order_rvs`)
and the log-likelihood unchanged — and with a cached design matrix and
`restart = False` the cache state is returned untouched. -/
theorem solve_sign_invariant_and_stateless (R N : ℕ)
    (A W : Matrix (Fin R) (Fin N) ℝ) (sig sig' : Fin R → ℝ)
    (hs : ∀ r, sig' r = sig r ∨ sig' r = -sig r) (xs : Fin (N + R) → ℝ)
    (M0 : Matrix (Fin (R * N)) (Fin (N + R)) ℝ) :
    ivarsVec ℝ R N W sig' = ivarsVec ℝ R N W sig ∧
      (solves ℝ R N A W sig' xs ↔ solves ℝ R N A W sig xs) ∧
      lnlikeED R N A W sig' xs = lnlikeED R N A W sig xs ∧
      getDesignMatrixSt ℝ R N false (some M0) = (M0, some M0) := by
  have hM : ivarsM ℝ R N W sig' = ivarsM ℝ R N W sig := by
    funext r n
    simp only [ivarsM, Matrix.of_apply]
    rcases hs r with h | h
    · rw [h]
    · rw [h, neg_sq]
  have hV : ivarsVec ℝ R N W sig' = ivarsVec ℝ R N W sig := by
    funext i
    simp only [ivarsVec, hM]
  refine ⟨hV, ?_, ?_, rfl⟩
  · unfold solves mTm mTy
    rw [hV]
  · unfold lnlikeED
    rw [hV]

/-- Witness for `solve_sign_invariant_and_stateless` at `R = N = 1` with
`sig = 1` negated to `sig' = -1`. -/
theorem solve_sign_invariant_and_stateless_witness :
    ivarsVec ℝ 1 1 (Matrix.of fun _ _ => 2) (fun _ => -1) =
        ivarsVec ℝ 1 1 (Matrix.of fun _ _ => 2) (fun _ => 1) ∧
      (solves ℝ 1 1 (Matrix.of fun _ _ => 5) (Matrix.of fun _ _ => 2) (fun _ => -1) 0 ↔
        solves ℝ 1 1 (Matrix.of fun _ _ => 5) (Matrix.of fun _ _ => 2) (fun _ => 1) 0) ∧
      lnlikeED 1 1 (Matrix.of fun _ _ => 5) (Matrix.of fun _ _ => 2) (fun _ => -1) 0 =
          lnlikeED 1 1 (Matrix.of fun _ _ => 5) (Matrix.of fun _ _ => 2) (fun _ => 1) 0 ∧
        getDesignMatrixSt ℝ 1 1 false (some (designM ℝ 1 1)) =
          (designM ℝ 1 1, some (designM ℝ 1 1)) :=
  solve_sign_invariant_and_stateless 1 1 (Matrix.of fun _ _ => 5) (Matrix.of fun _ _ => 2)
    (fun _ => 1) (fun _ => -1) (fun _ => Or.inr rfl) 0 (designM ℝ 1 1)

/-- C6 counterexample: `A` of shape `2 × 2` and `W` of shape `1 × 2` disagree,
yet the embedded `lnlike_sigmas` run reaches the linear solve with no error of
any kind — `W` silently broadcasts against `sigmas[Rs]**2` — so no
ShapeMismatch is raised before linear algebra is attempted. -/
theorem shape_mismatch_not_raised :
    ((⟨2, 2, fun _ _ => 1⟩ : NArr ℚ).rows ≠ (⟨1, 2, fun _ _ => 1⟩ : NArr ℚ).rows ∨
        (⟨2, 2, fun _ _ => 1⟩ : NArr ℚ).cols ≠ (⟨1, 2, fun _ _ => 1⟩ : NArr ℚ).cols) ∧
      (prepNormalEq ℚ 2 2 ⟨2, 2, fun _ _ => 1⟩ ⟨1, 2, fun _ _ => 1⟩ [0, 0]).isOk = true := by
  constructor
  · left
    decide
  · rfl

/-- C6 amended: the only fail-fast validation in the combination routine is
the assertion `assert len(sigmas) == self.R`; whenever the sigma vector has
the wrong length the routine fails before any computation, while mismatched
`A`/`W` shapes are not checked. -/
theorem sigma_length_assert_fails_fast (K : Type) [Zero K] [One K] [Add K] [Mul K]
    [Div K] [Inv K] [NatCast K] (R N : ℕ) (A W : NArr K) (sigmas : List K)
    (h : sigmas.length ≠ R) :
    prepNormalEq K R N A W sigmas = .error .assertFail := by
  unfold prepNormalEq
  rw [if_neg h]

/-- Witness for `sigma_length_assert_fails_fast`: a length-1 sigma vector
with `R = 2`. -/
theorem sigma_length_assert_fails_fast_witness :
    ([(0 : ℚ)].length ≠ 2) ∧
      prepNormalEq ℚ 2 2 ⟨2, 2, fun _ _ => 1⟩ ⟨2, 2, fun _ _ => 1⟩ [0] =
        .error .assertFail :=
  ⟨by decide,
    sigma_length_assert_fails_fast ℚ 2 2 ⟨2, 2, fun _ _ => 1⟩ ⟨2, 2, fun _ _ => 1⟩ [0]
      (by decide)⟩

/-- C7: with a NaN entry in `A` (here the whole `1 × 1` data array), finite
positive weights and finite sigmas, the embedded `lnlike_sigmas` run performs
no finiteness check: it reaches the linear solve successfully (`isOk`) and
every entry of the assembled right-hand side `MTy` is non-finite — the NaN
has propagated into the solve instead of being rejected. -/
theorem nan_input_not_rejected :
    (prepNormalEq FQ 1 1 ⟨1, 1, fun _ _ => FQ.nonfinite⟩ ⟨1, 1, fun _ _ => FQ.fin 1⟩
        [FQ.fin 0]).isOk = true ∧
      Option.map (fun p => p.2.all FQ.isFin)
          (prepNormalEq FQ 1 1 ⟨1, 1, fun _ _ => FQ.nonfinite⟩
            ⟨1, 1, fun _ _ => FQ.fin 1⟩ [FQ.fin 0]).toOption =
        some false := by
  constructor
  · rfl
  · rfl

/-- C9: frame property of `combine_orders`. After the call the transient
attributes `M`, `all_rvs`, `all_ivars` do not exist, the three result
attributes hold arrays of lengths `N`, `R` and `R` respectively, and every
other attribute is unchanged. The solution vector has length `N + R` (it
solves an `(N+R)`-dimensional system) and the optimizer output has length
`R` (the length of its initial guess). -/
theorem combine_orders_frame (R N : ℕ) (name : String) (xs soln : List ℚ)
    (st : AttrMap) (hxs : xs.length = N + R) (hsoln : soln.length = R) :
    (combineOrdersAttrs N name xs soln st Attr.M = none ∧
        combineOrdersAttrs N name xs soln st Attr.all_rvs = none ∧
        combineOrdersAttrs N name xs soln st Attr.all_ivars = none) ∧
      (combineOrdersAttrs N name xs soln st (Attr.comp name ("time_rvs")) =
          some (Val.arr (xs.take N)) ∧ (xs.take N).length = N) ∧
      (combineOrdersAttrs N name xs soln st (Attr.comp name ("order_rvs")) =
          some (Val.arr (xs.drop N)) ∧ (xs.drop N).length = R) ∧
      (combineOrdersAttrs N name xs soln st (Attr.comp name ("order_sigmas")) =
          some (Val.arr soln) ∧ soln.length = R) ∧
      ∀ a : Attr, a ≠ Attr.M → a ≠ Attr.all_rvs → a ≠ Attr.all_ivars →
        a ≠ Attr.comp name ("time_rvs") → a ≠ Attr.comp name ("order_rvs") →
        a ≠ Attr.comp name ("order_sigmas") →
        combineOrdersAttrs N name xs soln st a = st a := by
  have hco : ∀ f g : String, f ≠ g → Attr.comp name f ≠ Attr.comp name g := by
    intro f g hfg h
    exact hfg (Attr.comp.inj h).2
  have h1 : Attr.comp name ("time_rvs") ≠ Attr.comp name ("order_rvs") :=
    hco _ _ (by decide)
  have h2 : Attr.comp name ("time_rvs") ≠ Attr.comp name ("order_sigmas") :=
    hco _ _ (by decide)
  have h3 : Attr.comp name ("order_rvs") ≠ Attr.comp name ("order_sigmas") :=
    hco _ _ (by decide)
  refine ⟨⟨?_, ?_, ?_⟩, ⟨?_, ?_⟩, ⟨?_, ?_⟩, ⟨?_, ?_⟩, ?_⟩
  · simp [combineOrdersAttrs, Function.update_apply]
  · simp [combineOrdersAttrs, Function.update_apply]
  · simp [combineOrdersAttrs, Function.update_apply]
  · simp [combineOrdersAttrs, Function.update_apply, h1, h2]
  · rw [List.length_take, hxs]
    omega
  · simp [combineOrdersAttrs, Function.update_apply, h3]
  · rw [List.length_drop, hxs]
    omega
  · simp [combineOrdersAttrs, Function.update_apply]
  · exact hsoln
  · intro a ha1 ha2 ha3 ha4 ha5 ha6
    simp [combineOrdersAttrs, Function.update_apply, ha1, ha2, ha3, ha4, ha5, ha6]

/-- Witness for `combine_orders_frame` with `R = N = 1`, component name
`star`, solution vector `[1, 2]` and optimizer output `[3]`, on an empty
attribute map: the transients are absent afterwards and an unrelated
attribute is untouched. -/
theorem combine_orders_frame_witness :
    (([(1 : ℚ), 2].length = 1 + 1) ∧ ([(3 : ℚ)].length = 1)) ∧
      (combineOrdersAttrs 1 ("star") [1, 2] [3] (fun _ => none) Attr.M = none ∧
        combineOrdersAttrs 1 ("star") [1, 2] [3] (fun _ => none) (Attr.other ("epochs")) =
          none) := by
  have h := combine_orders_frame 1 1 ("star") [1, 2] [3] (fun _ => none)
    (by decide) (by decide)
  exact ⟨⟨by decide, by decide⟩,
    h.1.1, h.2.2.2.2 (Attr.other ("epochs")) (by decide) (by decide) (by decide)
      (by decide) (by decide) (by decide)⟩

/-- C10: calling `add_component` with a name already present in
`component_names` only prints a message and returns — the `Results` object
is left entirely unchanged. -/
theorem add_component_duplicate_noop (R N : ℕ) (cname : String) (st : ResState)
    (h : cname ∈ st.component_names) : addComponent R N cname st = st := by
  unfold addComponent
  rw [if_pos h]

/-- Witness for `add_component_duplicate_noop`: re-adding the component
`rv` to an object that already registered it. -/
theorem add_component_duplicate_noop_witness :
    ("rv" ∈ (⟨["rv"], fun _ => none⟩ : ResState).component_names) ∧
      addComponent 1 1 ("rv") ⟨["rv"], fun _ => none⟩ =
        (⟨["rv"], fun _ => none⟩ : ResState) :=
  ⟨by decide,
    add_component_duplicate_noop 1 1 ("rv") ⟨["rv"], fun _ => none⟩ (by decide)⟩

end WobbleRV
